import Mathlib

/-!
Verification of the evo-ssearch embedding index store against its
specification.  The Python sources (oldapp.py, app.py, old_app.py,
clip_search_backend.py, config.py) are shallowly embedded below: pure
functions become Lean functions, fallible per-file operations (embedding,
stat, file reads) become Option-valued inputs, and the persisted files are
modelled by their decoded contents.  Embedding vectors are modelled over ℚ:
none of the properties checked here depends on floating-point rounding,
only on which vectors are stored and in which positions.
-/

namespace EvoSearch

/-- Character strings, modelled as lists of characters so that the
lexicographic comparison Python applies to them can be reasoned about
directly.  Python compares strings by code point. -/
abbrev Str := List Char

/-- Lexicographic comparison of two character lists by code point, exactly
the order Python uses for `str` comparison. -/
def lexLe : Str → Str → Bool
  | [], _ => true
  | _ :: _, [] => false
  | a :: as, b :: bs =>
    if a.toNat < b.toNat then true
    else if b.toNat < a.toNat then false
    else lexLe as bs

/-- An embedding vector.  Components are rationals; the claims under study
depend only on vector identity and position, never on rounding. -/
abbrev Vec := List ℚ

/-- Inner product, the score FAISS IndexFlatIP assigns a stored vector
against a query. -/
def dot (a b : Vec) : ℚ := (List.zipWith (· * ·) a b).sum

/-- Per-image metadata record written by oldapp.py create_index. -/
structure FileMeta where
  path : String
  mtime : ℚ
  size : Nat
deriving DecidableEq, Repr

/-- One file encountered by the folder scan of oldapp.py create_index.
`embedResult` is the outcome of get_image_embedding (none: the call
raised), `statResult` the outcome of Path.stat (none: the call raised).
Both calls sit inside the per-file try/except of create_index. -/
structure SourceFile where
  path : String
  embedResult : Option Vec
  statResult : Option (ℚ × Nat)
deriving DecidableEq, Repr

/-- One iteration of the per-file loop of oldapp.py create_index
(lines 64-80).  On an embedding failure the except clause skips the file
before anything is appended.  When embedding succeeds the vector and the
path are appended first; only then is stat() called, so a stat failure
leaves the already-appended vector and path in place while the metadata
append is skipped. -/
def createIndexStep (acc : List Vec × List String × List FileMeta)
    (f : SourceFile) : List Vec × List String × List FileMeta :=
  match f.embedResult with
  | none => acc
  | some v =>
    let embeddings := acc.1 ++ [v]
    let paths := acc.2.1 ++ [f.path]
    match f.statResult with
    | none => (embeddings, paths, acc.2.2)
    | some (m, s) => (embeddings, paths, acc.2.2 ++ [⟨f.path, m, s⟩])

/-- The accumulating loop of oldapp.py create_index over the scanned files
(in scan order), producing the embeddings, image_paths and image_metadata
lists. -/
def createIndexRaw (files : List SourceFile) :
    List Vec × List String × List FileMeta :=
  files.foldl createIndexStep ([], [], [])

/-- oldapp.py create_index: returns None (modelled none) when no embedding
succeeded, otherwise the three lists that save_index persists. -/
def create_index (files : List SourceFile) :
    Option (List Vec × List String × List FileMeta) :=
  let r := createIndexRaw files
  if r.1.isEmpty then none else some r

/-- The two persisted files app.py reads: the decoded contents of
index.faiss (none: file missing) and of paths.pkl (none: missing or
unreadable). -/
structure IndexFiles where
  indexFaiss : Option (List Vec)
  pathsPkl : Option (List String)
deriving DecidableEq, Repr

/-- app.py _load_paths: any failure to read paths.pkl yields the empty
list (bare except). -/
def loadPaths (pathsPkl : Option (List String)) : List String :=
  pathsPkl.getD []

/-- The embedding loop of app.py create_or_update_index (lines 57-59).
There is no per-file try/except there: a single failing file raises out of
the whole call, so the result is all-or-nothing.  Batching into chunks of
BATCH_SIZE only bounds peak memory and does not change the value. -/
def batchEmbed (embed : String → Option Vec) : List String → Option (List Vec)
  | [] => some []
  | p :: ps =>
    match embed p, batchEmbed embed ps with
    | some v, some vs => some (v :: vs)
    | _, _ => none

/-- What one completed call of app.py create_or_update_index writes back
to disk (index.faiss contents, paths.pkl contents) together with how many
paths this call appended. -/
structure BuildResult where
  vectors : List Vec
  paths : List String
  added : Nat
deriving DecidableEq, Repr

/-- The catalog diff of app.py create_or_update_index line 55: the
scanned paths not already present in the previously indexed ones, in scan
order. -/
def newPathsOf (scan prev : List String) : List String :=
  scan.filter (fun p => decide (p ∉ prev))

/-- app.py create_or_update_index (lines 51-65): load previous paths, diff
the scan against them, embed the new files (a failure aborts the call and
nothing is written, modelled none), then append vectors and paths in
lockstep and write both files.  When nothing is new the same contents are
rewritten unchanged. -/
def create_or_update_index (embed : String → Option Vec)
    (scan : List String) (files : IndexFiles) : Option BuildResult :=
  match batchEmbed embed (newPathsOf scan (loadPaths files.pathsPkl)) with
  | none => none
  | some vs =>
    if vs.isEmpty then
      some ⟨files.indexFaiss.getD [], loadPaths files.pathsPkl, 0⟩
    else
      some ⟨files.indexFaiss.getD [] ++ vs,
        loadPaths files.pathsPkl ++ newPathsOf scan (loadPaths files.pathsPkl),
        (newPathsOf scan (loadPaths files.pathsPkl)).length⟩

/-- The limit validation shared by oldapp.py search (lines 1984-1990) and
search_by_image (lines 2065-2071): parse failure (none) or an out-of-range
value falls back to the configured default, an in-range value is kept. -/
def validate_limit (minR maxR defR : ℤ) (req : Option ℤ) : ℤ :=
  match req with
  | none => defR
  | some l => if l < minR ∨ maxR < l then defR else l

/-- Comparison used to rank search hits: higher score first, ties broken
by lower position (the deterministic order of the exact inner-product
scan). -/
def hitLE (a b : Nat × ℚ) : Bool :=
  decide (b.2 < a.2 ∨ (a.2 = b.2 ∧ a.1 ≤ b.1))

/-- The Vector Store search: exact inner-product scoring of the query
against every stored vector, ranked by score descending (ties by lower
position), truncated to k candidates.  This is the §4.1 contract of
faiss.IndexFlatIP.search as used by the routes, with k never exceeding the
store size. -/
def faiss_search (vecs : List Vec) (q : Vec) (k : Nat) : List (Nat × ℚ) :=
  (((vecs.map (dot q)).enum).mergeSort hitLE).take k

/-- One ranked search result as assembled by the routes; the thumbnail
payload is not modelled, only the identity and score the claims are
about. -/
structure SearchResult where
  path : String
  score : ℚ
deriving DecidableEq, Repr

/-- The hit-assembly loop of oldapp.py search (lines 2008-2040): a hit
whose position fails the bounds check 0 le idx lt len(image_paths) is
skipped, and a hit whose thumbnail rendering raises is skipped by the
per-hit try/except (thumbnail rendering is abstracted into the thumbOk
predicate). -/
def process_hits (paths : List String) (thumbOk : String → Bool) :
    List (ℤ × ℚ) → List SearchResult
  | [] => []
  | (i, s) :: rest =>
    if 0 ≤ i ∧ i < (paths.length : ℤ) then
      let p := paths.getD i.toNat ""
      if thumbOk p then ⟨p, s⟩ :: process_hits paths thumbOk rest
      else process_hits paths thumbOk rest
    else process_hits paths thumbOk rest

/-- Python list indexing as app.py applies it to paths[i]: a negative
index counts from the end of the list.  (An index that is out of range on
both sides raises in Python; the routes studied only reach this function
with indices above -len-1, where the getD default is never taken.) -/
def pyGetD (l : List α) (i : ℤ) (d : α) : α :=
  if 0 ≤ i then l.getD i.toNat d else l.getD (l.length - (-i).toNat) d

/-- The hit-assembly loop of app.py search (lines 151-155) and old_app.py
search (lines 261-266): only the upper bound i ge len(paths) is checked
and skipped; any other index, including the negative FAISS sentinel, is
passed straight to Python list indexing. -/
def app_process_hits (paths : List String) :
    List (ℤ × ℚ) → List SearchResult
  | [] => []
  | (i, s) :: rest =>
    if (paths.length : ℤ) ≤ i then app_process_hits paths rest
    else ⟨pyGetD paths i "", s⟩ :: app_process_hits paths rest

/-- The oldapp.py /search route (lines 1984-2048) after a successful index
load: validate the limit, clamp the candidate count to the store, answer
the empty store with an empty list, otherwise run the vector search and
assemble the hits.  A negative candidate count would make faiss raise and
the route answer an error response, modelled none. -/
def oldapp_search (minR maxR defR : ℤ) (req : Option ℤ) (vecs : List Vec)
    (paths : List String) (q : Vec) (thumbOk : String → Bool) :
    Option (List SearchResult) :=
  let limit := validate_limit minR maxR defR req
  let k := min limit (paths.length : ℤ)
  if k < 0 then none
  else if k = 0 then some []
  else some (process_hits paths thumbOk
    ((faiss_search vecs q k.toNat).map (fun h => ((h.1 : ℤ), h.2))))

/-- app.py load_index (lines 67-70): a missing index.faiss means not
indexed (None with an empty path list); otherwise the index is returned
together with whatever _load_paths recovers, with no comparison of the two
lengths. -/
def app_load_index (files : IndexFiles) : Option (List Vec) × List String :=
  match files.indexFaiss with
  | none => (none, [])
  | some vecs => (some vecs, loadPaths files.pathsPkl)

/-- The persisted files oldapp.py load_index reads.  metadataPkl is none
when metadata.pkl is absent, some none when it exists but unpickling
raises, some (some m) when it decodes to m. -/
structure OldIndexFiles where
  dirExists : Bool
  indexFaiss : Option (List Vec)
  pathsPkl : Option (List String)
  metadataPkl : Option (Option (List FileMeta))
deriving DecidableEq, Repr

/-- oldapp.py load_index (lines 108-135): a missing index directory or a
raising read of index.faiss or paths.pkl yields (None, None, None); a
missing or unreadable metadata.pkl degrades to metadata None; the loaded
vectors and paths are returned with no verification that their lengths
match. -/
def oldapp_load_index (f : OldIndexFiles) :
    Option (List Vec × List String × Option (List FileMeta)) :=
  if f.dirExists then
    match f.indexFaiss, f.pathsPkl with
    | some vecs, some ps =>
      let meta : Option (List FileMeta) :=
        match f.metadataPkl with
        | none => none
        | some none => none
        | some (some m) => some m
      some (vecs, ps, meta)
    | _, _ => none
  else none

/-- The serialized form of one stored comment, exactly as
add_image_comment builds it: a bracketed timestamp, a space, the text. -/
def fmtComment (ts text : Str) : Str :=
  '[' :: (ts ++ (']' :: ' ' :: text))

/-- The timestamp part of a serialized comment: the characters after the
opening bracket up to the closing one. -/
def tsOf (c : Str) : Str :=
  (c.drop 1).takeWhile (fun ch => decide (ch ≠ ']'))

/-- The comments.json contents: a JSON object mapping image path to its
ordered comment list, key insertion order preserved (Python dict). -/
abbrev CommentLog := List (String × List Str)

/-- oldapp.py add_image_comment (lines 172-186) acting on the loaded log:
create the entry for the path when absent, then append the freshly
timestamped comment to that path and only that path. -/
def add_image_comment (log : CommentLog) (imagePath : String)
    (ts text : Str) : CommentLog :=
  if (log.lookup imagePath).isSome then
    log.map (fun e =>
      if e.1 = imagePath then (e.1, e.2 ++ [fmtComment ts text]) else e)
  else
    log ++ [(imagePath, [fmtComment ts text])]

/-- One entry of the commented-images listing: the identity, its comment
count and its latest serialized comment (thumbnail and metadata payloads
are not modelled). -/
structure CommentedEntry where
  path : String
  count : Nat
  latest : Str
deriving DecidableEq, Repr

/-- Sort order applied by oldapp.py get_commented_images line 1938:
results.sort by the raw latest-comment string, reverse=True. -/
def entryLE (a b : CommentedEntry) : Bool := lexLe b.latest a.latest

/-- oldapp.py get_commented_images (lines 1883-1940) after a successful
index load: keep the commented paths that are present in the loaded
catalog paths and whose thumbnail renders (the per-path try/except skips
the rest), record count and latest comment for each, then sort by the raw
latest-comment string descending. -/
def get_commented_images (log : CommentLog) (knownPaths : List String)
    (thumbOk : String → Bool) : List CommentedEntry :=
  ((log.filter (fun e => decide (e.1 ∈ knownPaths) && thumbOk e.1)).map
    (fun e => ⟨e.1, e.2.length, e.2.getLastD []⟩)).mergeSort entryLE

/-- Score of the stored vector at one position against a query, as
reported for that position by the Vector Store. -/
def scoreAt (q : Vec) (vecs : List Vec) (i : Nat) : ℚ :=
  dot q (vecs.getD i [])

/-- A sample timestamp in the exact 19-character strftime format
(%Y-%m-%d %H:%M:%S) that add_image_comment stamps comments with. -/
def sampleTs : Str :=
  ['2', '0', '2', '4', '-', '0', '1', '-', '0', '2', ' ',
   '0', '3', ':', '0', '4', ':', '0', '5']

/-! ## Supporting lemmas -/

theorem createIndex_foldl (files : List SourceFile)
    (acc : List Vec × List String × List FileMeta) :
    (files.foldl createIndexStep acc).1 =
      acc.1 ++ files.filterMap (fun f => f.embedResult) ∧
    (files.foldl createIndexStep acc).2.1 =
      acc.2.1 ++ (files.filter (fun f => f.embedResult.isSome)).map
        (fun f => f.path) := by
  induction files generalizing acc with
  | nil => simp
  | cons f fs ih =>
    cases he : f.embedResult with
    | none =>
      simpa [createIndexStep, he] using ih acc
    | some v =>
      cases hs : f.statResult with
      | none =>
        simpa [createIndexStep, he, hs] using
          ih (acc.1 ++ [v], acc.2.1 ++ [f.path], acc.2.2)
      | some ms =>
        obtain ⟨m, s⟩ := ms
        simpa [createIndexStep, he, hs] using
          ih (acc.1 ++ [v], acc.2.1 ++ [f.path], acc.2.2 ++ [⟨f.path, m, s⟩])

theorem batchEmbed_length (embed : String → Option Vec) :
    ∀ ps vs, batchEmbed embed ps = some vs → vs.length = ps.length := by
  intro ps
  induction ps with
  | nil => intro vs h; simp [batchEmbed] at h; simp [← h]
  | cons p ps ih =>
    intro vs h
    simp only [batchEmbed] at h
    cases hp : embed p with
    | none => rw [hp] at h; exact absurd h (by simp)
    | some v =>
      rw [hp] at h
      cases hb : batchEmbed embed ps with
      | none => rw [hb] at h; exact absurd h (by simp)
      | some vs0 =>
        rw [hb] at h
        simp only [Option.some.injEq] at h
        subst h
        simp [ih vs0 hb]

/-! ## Claim theorems -/

/-- C1: the claim states that for every build, the number of stored
vectors equals the number of stored paths and of metadata records,
including when individual files fail.  The code violates this:
in oldapp.py create_index the vector and the path are appended before
Path.stat is called, so a file whose embedding succeeds but whose stat
raises is skipped only for the metadata list.  At the concrete input below
(file a.jpg embeds but its stat raises, file b.jpg succeeds fully) the
build completes with two vectors and two paths but a single metadata
record, and that record belongs to b.jpg while position 0 of the catalog
is a.jpg: the metadata is both shorter and shifted out of alignment. -/
theorem create_index_stat_failure_misaligns_metadata :
    createIndexRaw
        [⟨"a.jpg", some [1], none⟩, ⟨"b.jpg", some [2], some (5, 7)⟩] =
      ([[1], [2]], ["a.jpg", "b.jpg"], [⟨"b.jpg", 5, 7⟩]) ∧
    (createIndexRaw
        [⟨"a.jpg", some [1], none⟩,
         ⟨"b.jpg", some [2], some (5, 7)⟩]).2.2.length ≠
      (createIndexRaw
        [⟨"a.jpg", some [1], none⟩,
         ⟨"b.jpg", some [2], some (5, 7)⟩]).2.1.length := by
  constructor
  · rfl
  · decide

/-- C4: the requested result limit is validated against the configured
range: an unparsable or out-of-range request falls back to the configured
default and an in-range request is kept, so whenever the configuration is
coherent (min le default le max, as the shipped values 3, 12, 48 are) the
effective limit always lies in the configured range. -/
theorem validate_limit_spec (minR maxR defR : ℤ) (req : Option ℤ)
    (hmin : minR ≤ defR) (hmax : defR ≤ maxR) :
    (minR ≤ validate_limit minR maxR defR req ∧
      validate_limit minR maxR defR req ≤ maxR) ∧
    validate_limit minR maxR defR none = defR ∧
    (∀ l : ℤ, (l < minR ∨ maxR < l) →
      validate_limit minR maxR defR (some l) = defR) ∧
    (∀ l : ℤ, minR ≤ l → l ≤ maxR →
      validate_limit minR maxR defR (some l) = l) := by
  refine ⟨?_, rfl, ?_, ?_⟩
  · cases req with
    | none => exact ⟨hmin, hmax⟩
    | some l =>
      simp only [validate_limit]
      split
      · exact ⟨hmin, hmax⟩
      · omega
  · intro l hl
    simp only [validate_limit, if_pos hl]
  · intro l h1 h2
    simp only [validate_limit]
    rw [if_neg]
    omega

theorem validate_limit_spec_witness :
    (3 : ℤ) ≤ 12 ∧ (12 : ℤ) ≤ 48 ∧
    (((3 : ℤ) ≤ validate_limit 3 48 12 (some 100) ∧
      validate_limit 3 48 12 (some 100) ≤ 48) ∧
    validate_limit 3 48 12 none = 12 ∧
    (∀ l : ℤ, (l < 3 ∨ 48 < l) → validate_limit 3 48 12 (some l) = 12) ∧
    (∀ l : ℤ, 3 ≤ l → l ≤ 48 → validate_limit 3 48 12 (some l) = l)) :=
  ⟨by decide, by decide,
    validate_limit_spec 3 48 12 (some 100) (by decide) (by decide)⟩

/-- C6: the claim states that matching lengths of the vector store and the
catalog are verified on load and a mismatch is a corruption error.  The
code performs no such check: at the concrete input below, oldapp.py
load_index returns one vector beside an empty path list without any
error, and app.py load_index, given an index file beside an unreadable
catalog file, returns the index with an empty path list. -/
theorem load_index_mismatch_not_detected :
    oldapp_load_index ⟨true, some [[1]], some [], none⟩ =
      some ([[1]], [], none) ∧
    app_load_index ⟨some [[1]], none⟩ = (some [[1]], []) :=
  ⟨rfl, rfl⟩

/-- C6 amended: no length verification happens on load.  Whenever both
files read successfully, both loaders return the loaded vectors and paths
unchanged even when their lengths differ, so a mismatch is silently
tolerated rather than reported as a corruption error. -/
theorem load_index_no_length_check (vecs : List Vec) (ps : List String)
    (hmismatch : vecs.length ≠ ps.length) :
    oldapp_load_index ⟨true, some vecs, some ps, none⟩ =
      some (vecs, ps, none) ∧
    app_load_index ⟨some vecs, some ps⟩ = (some vecs, ps) :=
  ⟨rfl, rfl⟩

theorem load_index_no_length_check_witness :
    ([[1]] : List Vec).length ≠ ([] : List String).length ∧
    (oldapp_load_index ⟨true, some [[1]], some [], none⟩ =
        some ([[1]], [], none) ∧
      app_load_index ⟨some [[1]], some []⟩ = (some [[1]], [])) :=
  ⟨by decide, load_index_no_length_check [[1]] [] (by decide)⟩

/-- C7: the claim states that an embedding failure for one file is skipped
and never aborts the rest of the build.  That holds only for oldapp.py
create_index; in app.py (and old_app.py) create_or_update_index there is
no per-file recovery, so at the concrete input below, where a.jpg embeds
and b.jpg fails, the whole call raises: nothing is appended and nothing is
written, instead of an index containing a.jpg. -/
theorem create_or_update_index_aborts_on_embed_failure :
    create_or_update_index
      (fun p => if p = "a.jpg" then some [1] else none)
      ["a.jpg", "b.jpg"] ⟨none, none⟩ = none := by
  rfl

/-- C7 amended: the skip-and-continue recovery is specific to oldapp.py
create_index: there a per-file failure skips that file and the completed
build stores exactly the vectors of the files that embedded successfully,
with exactly their paths, in scan order.  In app.py and old_app.py
create_or_update_index a single embedding failure instead aborts the
entire call and leaves the persisted index unchanged. -/
theorem create_index_skips_failed_files (files : List SourceFile) :
    (createIndexRaw files).1 = files.filterMap (fun f => f.embedResult) ∧
    (createIndexRaw files).2.1 =
      (files.filter (fun f => f.embedResult.isSome)).map (fun f => f.path) := by
  simpa using createIndex_foldl files ([], [], [])

/-- C9: the claim states that every search hit whose position does not
resolve to a catalog entry is skipped.  That holds for oldapp.py, which
checks both bounds, but app.py and old_app.py only skip positions at or
above len(paths): at the concrete input below the FAISS sentinel position
-1 passes their check and Python negative indexing resolves it to the
last catalog entry, so the route returns the wrong path b.jpg instead of
skipping the hit. -/
theorem app_search_sentinel_resolves_to_last_path :
    app_process_hits ["a.jpg", "b.jpg"] [((-1 : ℤ), 3)] =
      [⟨"b.jpg", 3⟩] := by
  rfl

/-- C9 amended: the defensive position check is specific to oldapp.py
search: there every returned result takes its path from the catalog entry
at exactly the position the vector store reported, and a hit whose
position lies outside the valid catalog range (negative sentinels
included) is skipped without failing.  app.py and old_app.py check only
the upper bound, so a negative sentinel position is not skipped and
resolves, through Python negative indexing, to the last catalog entry. -/
theorem process_hits_defensive (paths : List String)
    (thumbOk : String → Bool) (hits : List (ℤ × ℚ)) :
    (∀ r ∈ process_hits paths thumbOk hits,
      ∃ h, h ∈ hits ∧ 0 ≤ h.1 ∧ h.1 < (paths.length : ℤ) ∧
        r.path = paths.getD h.1.toNat "" ∧ r.score = h.2) ∧
    (∀ (i : ℤ) (s : ℚ) (rest : List (ℤ × ℚ)),
      (i < 0 ∨ (paths.length : ℤ) ≤ i) →
      process_hits paths thumbOk ((i, s) :: rest) =
        process_hits paths thumbOk rest) := by
  constructor
  · induction hits with
    | nil => intro r hr; simp [process_hits] at hr
    | cons hd tl ih =>
      obtain ⟨i, s⟩ := hd
      intro r hr
      simp only [process_hits] at hr
      by_cases hb : 0 ≤ i ∧ i < (paths.length : ℤ)
      · rw [if_pos hb] at hr
        by_cases ht : thumbOk (paths.getD i.toNat "") = true
        · rw [if_pos ht] at hr
          rcases List.mem_cons.mp hr with heq | hmem
          · exact ⟨(i, s), List.mem_cons_self _ _, hb.1, hb.2,
              by rw [heq], by rw [heq]⟩
          · obtain ⟨h, hh, rest⟩ := ih r hmem
            exact ⟨h, List.mem_cons_of_mem _ hh, rest⟩
        · rw [if_neg ht] at hr
          obtain ⟨h, hh, rest⟩ := ih r hr
          exact ⟨h, List.mem_cons_of_mem _ hh, rest⟩
      · rw [if_neg hb] at hr
        obtain ⟨h, hh, rest⟩ := ih r hr
        exact ⟨h, List.mem_cons_of_mem _ hh, rest⟩
  · intro i s rest hout
    simp only [process_hits]
    rw [if_neg]
    omega

theorem process_hits_defensive_witness :
    process_hits ["a.jpg"] (fun _ => true) [((-1 : ℤ), 2)] =
      process_hits ["a.jpg"] (fun _ => true) [] :=
  (process_hits_defensive ["a.jpg"] (fun _ => true) [((-1 : ℤ), 2)]).2
    (-1) 2 [] (Or.inl (by decide))

theorem lookup_update_ne (log : CommentLog) (A B : String) (c : Str)
    (hne : B ≠ A) :
    (log.map (fun e => if e.1 = A then (e.1, e.2 ++ [c]) else e)).lookup B =
      log.lookup B := by
  induction log with
  | nil => rfl
  | cons e es ih =>
    obtain ⟨k, v⟩ := e
    by_cases hk : k = A
    · subst hk
      have h1 : (B == k) = false := beq_eq_false_iff_ne.mpr hne
      simp [List.lookup_cons, h1, ih]
    · simp only [List.map_cons, if_neg hk]
      by_cases hbk : B = k
      · have h1 : (B == k) = true := beq_iff_eq.mpr hbk
        simp [List.lookup_cons, h1]
      · have h1 : (B == k) = false := beq_eq_false_iff_ne.mpr hbk
        simp [List.lookup_cons, h1, ih]

theorem lookup_update_eq (log : CommentLog) (A : String) (c : Str)
    (v : List Str) (h : log.lookup A = some v) :
    (log.map (fun e => if e.1 = A then (e.1, e.2 ++ [c]) else e)).lookup A =
      some (v ++ [c]) := by
  induction log with
  | nil => simp at h
  | cons e es ih =>
    obtain ⟨k, w⟩ := e
    by_cases hak : A = k
    · have h1 : (A == k) = true := beq_iff_eq.mpr hak
      simp only [List.lookup_cons, h1, Option.some.injEq] at h
      subst h
      simp only [List.map_cons, if_pos hak.symm]
      simp [List.lookup_cons, h1]
    · have h1 : (A == k) = false := beq_eq_false_iff_ne.mpr hak
      simp only [List.lookup_cons, h1] at h
      have hne2 : ¬ k = A := fun hkA => hak hkA.symm
      simp only [List.map_cons, if_neg hne2, List.lookup_cons, h1]
      exact ih h

theorem lookup_append_single_ne (log : CommentLog) (A B : String)
    (c : List Str) (hne : B ≠ A) :
    (log ++ [(A, c)]).lookup B = log.lookup B := by
  have h1 : (B == A) = false := beq_eq_false_iff_ne.mpr hne
  simp [List.lookup_append, List.lookup_cons, h1]

theorem lookup_append_single_eq (log : CommentLog) (A : String)
    (c : List Str) (h : log.lookup A = none) :
    (log ++ [(A, c)]).lookup A = some c := by
  have h1 : (A == A) = true := beq_self_eq_true A
  simp [List.lookup_append, h, List.lookup_cons, h1]

/-- C10: a successful comment append to path A leaves the comment
sequence of every other path B unchanged, and the sequence of A afterwards
is its previous sequence (empty when A had none) with the single new
timestamped comment appended as the last element. -/
theorem add_image_comment_frame (log : CommentLog) (A B : String)
    (ts text : Str) (hne : B ≠ A) :
    (add_image_comment log A ts text).lookup B = log.lookup B ∧
    (add_image_comment log A ts text).lookup A =
      some (((log.lookup A).getD []) ++ [fmtComment ts text]) := by
  unfold add_image_comment
  cases h : log.lookup A with
  | none =>
    simp only [h, Option.isSome_none, Bool.false_eq_true, if_neg,
      Option.getD_none]
    exact ⟨lookup_append_single_ne log A B _ hne,
      by simpa using lookup_append_single_eq log A _ h⟩
  | some v =>
    simp only [h, Option.isSome_some, if_pos, Option.getD_some]
    exact ⟨lookup_update_ne log A B _ hne, lookup_update_eq log A _ v h⟩

theorem add_image_comment_frame_witness :
    (add_image_comment [("b.png", [['x']])] "a.png" ['t'] ['c']).lookup
        "b.png" = ([("b.png", [['x']])] : CommentLog).lookup "b.png" ∧
    (add_image_comment [("b.png", [['x']])] "a.png" ['t'] ['c']).lookup
        "a.png" =
      some ((([("b.png", [['x']])] : CommentLog).lookup "a.png").getD [] ++
        [fmtComment ['t'] ['c']]) :=
  add_image_comment_frame [("b.png", [['x']])] "a.png" "b.png" ['t'] ['c']
    (by decide)

theorem newPathsOf_eq_nil (scan prev : List String)
    (h : ∀ p ∈ scan, p ∈ prev) : newPathsOf scan prev = [] := by
  simp only [newPathsOf, List.filter_eq_nil_iff]
  intro p hp
  simp [h p hp]

theorem create_or_update_mem_paths (embed : String → Option Vec)
    (scan : List String) (files : IndexFiles) (r : BuildResult)
    (h : create_or_update_index embed scan files = some r) :
    ∀ p ∈ scan, p ∈ r.paths := by
  intro p hp
  unfold create_or_update_index at h
  cases hb : batchEmbed embed (newPathsOf scan (loadPaths files.pathsPkl)) with
  | none => simp [hb] at h
  | some vs =>
    simp only [hb] at h
    by_cases hmem : p ∈ loadPaths files.pathsPkl
    · by_cases hv : vs.isEmpty = true
      · rw [if_pos hv] at h
        cases h
        exact hmem
      · rw [if_neg hv] at h
        cases h
        exact List.mem_append_left _ hmem
    · have hnew : p ∈ newPathsOf scan (loadPaths files.pathsPkl) := by
        simp [newPathsOf, List.mem_filter, hp, hmem]
      by_cases hv : vs.isEmpty = true
      · exfalso
        have hlen := batchEmbed_length embed _ vs hb
        have : newPathsOf scan (loadPaths files.pathsPkl) = [] := by
          have hvnil : vs = [] := List.isEmpty_iff.mp hv
          subst hvnil
          exact (List.length_eq_zero.mp hlen.symm)
        rw [this] at hnew
        exact absurd hnew (List.not_mem_nil p)
      · rw [if_neg hv] at h
        cases h
        exact List.mem_append_right _ hnew

/-- C2: running app.py create_or_update_index a second time with the same
folder scan, against the files the first run wrote, finds nothing new:
the second run rewrites exactly the same vector and path contents (same
entry count, same paths, byte-for-byte identical pickled list) and its
number of newly added entries is zero. -/
theorem create_or_update_index_idempotent (embed : String → Option Vec)
    (scan : List String) (files : IndexFiles) (r : BuildResult)
    (h : create_or_update_index embed scan files = some r) :
    create_or_update_index embed scan ⟨some r.vectors, some r.paths⟩ =
      some ⟨r.vectors, r.paths, 0⟩ := by
  have hnew : newPathsOf scan (loadPaths (some r.paths)) = [] :=
    newPathsOf_eq_nil scan _ (create_or_update_mem_paths embed scan files r h)
  unfold create_or_update_index
  rw [hnew]
  rfl

theorem create_or_update_index_idempotent_witness :
    create_or_update_index (fun _ => some [1]) ["a.jpg"] ⟨none, none⟩ =
      some ⟨[[1]], ["a.jpg"], 1⟩ ∧
    create_or_update_index (fun _ => some [1]) ["a.jpg"]
        ⟨some [[1]], some ["a.jpg"]⟩ =
      some ⟨[[1]], ["a.jpg"], 0⟩ :=
  ⟨by rfl,
    create_or_update_index_idempotent (fun _ => some [1]) ["a.jpg"]
      ⟨none, none⟩ ⟨[[1]], ["a.jpg"], 1⟩ (by rfl)⟩

/-- C3: on a folder already indexed with N entries whose scan now contains
exactly one additional supported file p (every other scanned file already
indexed), a re-run of app.py create_or_update_index reports one added
entry, writes N + 1 paths with the old N untouched in front, and appends
the single new vector behind the old ones, so the score any query obtains
for each previously indexed position is unchanged. -/
theorem create_or_update_index_incremental (embed : String → Option Vec)
    (scanOld : List String) (p : String) (v : Vec)
    (vecs : List Vec) (paths : List String)
    (hold : ∀ q ∈ scanOld, q ∈ paths) (hp : p ∉ paths)
    (hv : embed p = some v) :
    create_or_update_index embed (scanOld ++ [p]) ⟨some vecs, some paths⟩ =
      some ⟨vecs ++ [v], paths ++ [p], 1⟩ ∧
    (paths ++ [p]).length = paths.length + 1 ∧
    (∀ (q : Vec) (i : Nat), i < vecs.length →
      scoreAt q (vecs ++ [v]) i = scoreAt q vecs i) := by
  have hnew : newPathsOf (scanOld ++ [p]) paths = [p] := by
    have hnil := newPathsOf_eq_nil scanOld paths hold
    simp only [newPathsOf] at hnil ⊢
    rw [List.filter_append, hnil]
    simp [hp]
  refine ⟨?_, by simp, ?_⟩
  · unfold create_or_update_index
    simp only [loadPaths, Option.getD_some]
    rw [hnew]
    simp [batchEmbed, hv]
  · intro q i hi
    simp [scoreAt, List.getElem?_append_left hi]

theorem create_or_update_index_incremental_witness :
    (∀ q ∈ (["a.jpg"] : List String), q ∈ (["a.jpg"] : List String)) ∧
    ("b.jpg" : String) ∉ (["a.jpg"] : List String) ∧
    (create_or_update_index
        (fun p => if p = "b.jpg" then some [2] else some [1])
        (["a.jpg"] ++ ["b.jpg"]) ⟨some [[1]], some ["a.jpg"]⟩ =
        some ⟨[[1]] ++ [[2]], ["a.jpg"] ++ ["b.jpg"], 1⟩ ∧
      ((["a.jpg"] : List String) ++ ["b.jpg"]).length =
        (["a.jpg"] : List String).length + 1 ∧
      (∀ (q : Vec) (i : Nat), i < ([[1]] : List Vec).length →
        scoreAt q ([[1]] ++ [[2]]) i = scoreAt q [[1]] i)) :=
  ⟨by decide, by decide,
    create_or_update_index_incremental
      (fun p => if p = "b.jpg" then some [2] else some [1])
      ["a.jpg"] "b.jpg" [2] [[1]] ["a.jpg"]
      (by decide) (by decide) (by rfl)⟩

theorem validate_limit_ge_min (minR maxR defR : ℤ) (req : Option ℤ)
    (hmin : minR ≤ defR) (hmax : defR ≤ maxR) :
    minR ≤ validate_limit minR maxR defR req := by
  cases req with
  | none => exact hmin
  | some l =>
    simp only [validate_limit]
    split
    · exact hmin
    · omega

theorem map_getD_range (l : List α) (d : α) :
    (List.range l.length).map (fun i => l.getD i d) = l := by
  induction l with
  | nil => simp
  | cons a l ih =>
    have hcomp : ((fun i => (a :: l).getD i d) ∘ Nat.succ) =
        fun i => l.getD i d := by
      funext i
      simp
    rw [List.length_cons, List.range_succ_eq_map, List.map_cons,
      List.map_map, hcomp, ih]
    simp

theorem process_hits_of_valid (paths : List String)
    (thumbOk : String → Bool) (hth : ∀ p, thumbOk p = true) :
    ∀ hits : List (ℤ × ℚ),
    (∀ h ∈ hits, 0 ≤ h.1 ∧ h.1 < (paths.length : ℤ)) →
    process_hits paths thumbOk hits =
      hits.map (fun h => (⟨paths.getD h.1.toNat "", h.2⟩ : SearchResult)) := by
  intro hits
  induction hits with
  | nil => intro _; rfl
  | cons hd tl ih =>
    intro hv
    obtain ⟨i, s⟩ := hd
    have hb := hv (i, s) (List.mem_cons_self _ _)
    simp only [process_hits]
    rw [if_pos hb, if_pos (hth _),
      ih (fun h hh => hv h (List.mem_cons_of_mem _ hh))]
    rfl

theorem faiss_search_length (vecs : List Vec) (q : Vec) (k : Nat) :
    (faiss_search vecs q k).length = min k vecs.length := by
  simp [faiss_search]

theorem faiss_search_full (vecs : List Vec) (q : Vec) :
    List.Perm (faiss_search vecs q vecs.length) ((vecs.map (dot q)).enum) := by
  unfold faiss_search
  rw [List.take_of_length_le (by simp)]
  exact List.mergeSort_perm _ _

/-- C5: in the oldapp.py search route the number of candidates requested
from the vector store is the effective limit clamped to the store size,
an empty index answers with an empty result list regardless of the
requested limit, and an effective limit exceeding the number N of indexed
entries returns exactly all N entries (given that every thumbnail
renders), not an error. -/
theorem oldapp_search_boundary (minR maxR defR : ℤ) (req : Option ℤ)
    (vecs : List Vec) (paths : List String) (q : Vec)
    (thumbOk : String → Bool)
    (h0 : 0 ≤ minR) (hmin : minR ≤ defR) (hmax : defR ≤ maxR)
    (halign : vecs.length = paths.length) :
    (paths = [] →
      oldapp_search minR maxR defR req vecs paths q thumbOk = some []) ∧
    ((faiss_search vecs q
        (min (validate_limit minR maxR defR req)
          (paths.length : ℤ)).toNat).length =
      min (validate_limit minR maxR defR req).toNat paths.length) ∧
    ((paths.length : ℤ) < validate_limit minR maxR defR req →
      (∀ p, thumbOk p = true) →
      ∃ res, oldapp_search minR maxR defR req vecs paths q thumbOk =
          some res ∧
        List.Perm (res.map (fun r => r.path)) paths) := by
  have hL0 : 0 ≤ validate_limit minR maxR defR req :=
    le_trans h0 (validate_limit_ge_min minR maxR defR req hmin hmax)
  refine ⟨?_, ?_, ?_⟩
  · intro hp
    subst hp
    simp only [oldapp_search, List.length_nil, Nat.cast_zero]
    rw [min_eq_right hL0]
    simp
  · rw [faiss_search_length, halign]
    omega
  · intro hgt hth
    by_cases hN : paths.length = 0
    · have hp : paths = [] := List.length_eq_zero.mp hN
      subst hp
      refine ⟨[], ?_, by simp⟩
      simp only [oldapp_search, List.length_nil, Nat.cast_zero]
      rw [min_eq_right hL0]
      simp
    · have hk : min (validate_limit minR maxR defR req)
          ((paths.length : ℕ) : ℤ) = ((paths.length : ℕ) : ℤ) :=
        min_eq_right (le_of_lt hgt)
      simp only [oldapp_search]
      rw [hk, if_neg (by omega), if_neg (by omega)]
      refine ⟨_, rfl, ?_⟩
      have htn : (((paths.length : ℕ) : ℤ)).toNat = vecs.length := by omega
      rw [htn]
      have hperm := faiss_search_full vecs q
      have hvalid : ∀ h ∈ (faiss_search vecs q vecs.length).map
          (fun h => ((h.1 : ℤ), h.2)),
          0 ≤ h.1 ∧ h.1 < (paths.length : ℤ) := by
        intro h hh
        rcases List.mem_map.mp hh with ⟨x, hx, rfl⟩
        have hx2 : x ∈ (vecs.map (dot q)).enum := hperm.mem_iff.mp hx
        have hx3 : x.1 < vecs.length := by
          have hfst := List.fst_lt_add_of_mem_enumFrom
            (by simpa [List.enum] using hx2)
          simpa using hfst
        refine ⟨Int.natCast_nonneg _, ?_⟩
        omega
      rw [process_hits_of_valid paths thumbOk hth _ hvalid]
      have h1 : List.Perm ((faiss_search vecs q vecs.length).map Prod.fst)
          (List.range vecs.length) := by
        have hm := hperm.map Prod.fst
        rwa [List.enum_map_fst, List.length_map] at hm
      have h3 : (List.range vecs.length).map (fun i => paths.getD i "") =
          paths := by
        rw [halign]
        exact map_getD_range paths ""
      have h2 := h1.map (fun i => paths.getD i "")
      rw [h3] at h2
      have hsimp : (((faiss_search vecs q vecs.length).map
            (fun h => ((h.1 : ℤ), h.2))).map
            (fun h => (⟨paths.getD h.1.toNat "", h.2⟩ : SearchResult))).map
            (fun r => r.path) =
          ((faiss_search vecs q vecs.length).map Prod.fst).map
            (fun i => paths.getD i "") := by
        simp only [List.map_map]
        congr 1
      rw [hsimp]
      exact h2

theorem oldapp_search_boundary_witness :
    (0 : ℤ) ≤ 3 ∧ (3 : ℤ) ≤ 12 ∧ (12 : ℤ) ≤ 48 ∧
    ([[1], [2]] : List Vec).length =
      (["a.jpg", "b.jpg"] : List String).length ∧
    (((["a.jpg", "b.jpg"] : List String) = [] →
      oldapp_search 3 48 12 (some 100) [[1], [2]] ["a.jpg", "b.jpg"] [1]
        (fun _ => true) = some []) ∧
    ((faiss_search [[1], [2]] [1]
        (min (validate_limit 3 48 12 (some 100))
          ((["a.jpg", "b.jpg"] : List String).length : ℤ)).toNat).length =
      min (validate_limit 3 48 12 (some 100)).toNat
        (["a.jpg", "b.jpg"] : List String).length) ∧
    (((["a.jpg", "b.jpg"] : List String).length : ℤ) <
        validate_limit 3 48 12 (some 100) →
      (∀ p : String, (fun _ => true) p = true) →
      ∃ res, oldapp_search 3 48 12 (some 100) [[1], [2]]
          ["a.jpg", "b.jpg"] [1] (fun _ => true) = some res ∧
        List.Perm (res.map (fun r => r.path)) ["a.jpg", "b.jpg"])) :=
  ⟨by decide, by decide, by decide, by decide,
    oldapp_search_boundary 3 48 12 (some 100) [[1], [2]]
      ["a.jpg", "b.jpg"] [1] (fun _ => true)
      (by decide) (by decide) (by decide) (by decide)⟩

theorem lexLe_total : ∀ a b : Str, (lexLe a b || lexLe b a) = true := by
  intro a
  induction a with
  | nil => intro b; simp [lexLe]
  | cons x xs ih =>
    intro b
    cases b with
    | nil => simp [lexLe]
    | cons y ys =>
      simp only [lexLe]
      by_cases h1 : x.toNat < y.toNat
      · simp [h1]
      · by_cases h2 : y.toNat < x.toNat
        · simp [h1, h2]
        · simpa [h1, h2] using ih ys

theorem lexLe_trans : ∀ a b c : Str,
    lexLe a b = true → lexLe b c = true → lexLe a c = true := by
  intro a
  induction a with
  | nil => intro b c _ _; simp [lexLe]
  | cons x xs ih =>
    intro b c hab hbc
    cases b with
    | nil => simp [lexLe] at hab
    | cons y ys =>
      cases c with
      | nil => simp [lexLe] at hbc
      | cons z zs =>
        simp only [lexLe] at hab hbc ⊢
        by_cases hxy : x.toNat < y.toNat
        · by_cases hyz : y.toNat < z.toNat
          · simp [show x.toNat < z.toNat by omega]
          · by_cases hzy : z.toNat < y.toNat
            · simp [hyz, hzy] at hbc
            · simp [show x.toNat < z.toNat by omega]
        · by_cases hyx : y.toNat < x.toNat
          · simp [hxy, hyx] at hab
          · by_cases hyz : y.toNat < z.toNat
            · simp [show x.toNat < z.toNat by omega]
            · by_cases hzy : z.toNat < y.toNat
              · simp [hyz, hzy] at hbc
              · simp only [if_neg hxy, if_neg hyx] at hab
                simp only [if_neg hyz, if_neg hzy] at hbc
                have hxz1 : ¬ x.toNat < z.toNat := by omega
                have hxz2 : ¬ z.toNat < x.toNat := by omega
                simp only [if_neg hxz1, if_neg hxz2]
                exact ih ys zs hab hbc

theorem lexLe_nil_right : ∀ x : Str, lexLe x [] = true → x = [] := by
  intro x h
  cases x with
  | nil => rfl
  | cons c cs => simp [lexLe] at h

theorem lexLe_append_of_length_eq :
    ∀ (l1 l2 r1 r2 : Str), l1.length = l2.length →
      lexLe (l1 ++ r1) (l2 ++ r2) = true → lexLe l1 l2 = true := by
  intro l1
  induction l1 with
  | nil =>
    intro l2 r1 r2 hlen _
    simp [lexLe]
  | cons x xs ih =>
    intro l2 r1 r2 hlen h
    cases l2 with
    | nil => simp at hlen
    | cons y ys =>
      simp only [List.cons_append, lexLe] at h ⊢
      by_cases h1 : x.toNat < y.toNat
      · simp [h1]
      · by_cases h2 : y.toNat < x.toNat
        · simp [h1, h2] at h
        · simp only [if_neg h1, if_neg h2] at h ⊢
          exact ih ys r1 r2 (by simpa using hlen) h

theorem lexLe_fmtComment (ts1 t1 ts2 t2 : Str)
    (hlen : ts1.length = ts2.length)
    (h : lexLe (fmtComment ts1 t1) (fmtComment ts2 t2) = true) :
    lexLe ts1 ts2 = true := by
  have hh : lexLe (ts1 ++ (']' :: ' ' :: t1))
      (ts2 ++ (']' :: ' ' :: t2)) = true := by
    simpa [fmtComment, lexLe] using h
  exact lexLe_append_of_length_eq ts1 ts2 _ _ hlen hh

theorem takeWhile_no_bracket (t : Str) :
    ∀ ts : Str, ']' ∉ ts →
    (ts ++ (']' :: t)).takeWhile (fun ch => decide (ch ≠ ']')) = ts := by
  intro ts
  induction ts with
  | nil =>
    intro _
    simp [List.takeWhile_cons]
  | cons c cs ih =>
    intro hno
    have hc : c ≠ ']' := by
      intro hceq
      exact hno (by simp [hceq])
    simp only [List.cons_append, List.takeWhile_cons]
    rw [if_pos (by simpa using hc),
      ih (fun hm => hno (List.mem_cons_of_mem _ hm))]

theorem tsOf_fmtComment (ts t : Str) (hno : ']' ∉ ts) :
    tsOf (fmtComment ts t) = ts := by
  simp only [tsOf, fmtComment, List.drop_succ_cons, List.drop_zero]
  exact takeWhile_no_bracket (' ' :: t) ts hno

theorem getLastD_mem_or_nil :
    ∀ (l : List α) (d : α), l = [] ∨ l.getLastD d ∈ l := by
  intro l
  induction l with
  | nil => intro d; exact Or.inl rfl
  | cons a l ih =>
    intro d
    refine Or.inr ?_
    rw [List.getLastD_cons]
    rcases ih a with hnil | hmem
    · subst hnil
      simp [List.getLastD]
    · exact List.mem_cons_of_mem _ hmem

theorem entryLE_trans (a b c : CommentedEntry) :
    entryLE a b = true → entryLE b c = true → entryLE a c = true :=
  fun h1 h2 => lexLe_trans c.latest b.latest a.latest h2 h1

theorem entryLE_total (a b : CommentedEntry) :
    (entryLE a b || entryLE b a) = true :=
  lexLe_total b.latest a.latest

/-- C8: every entry of the commented-images listing is a catalog path
carrying its comment count and its latest comment, every commented
catalog path whose thumbnail renders is listed, and the listing is
ordered newest latest comment first: when the stored comments carry the
fixed-width bracketed timestamps the program itself writes, the raw
string sort of line 1938 orders the timestamps non-increasingly. -/
theorem get_commented_images_spec (log : CommentLog)
    (knownPaths : List String) (thumbOk : String → Bool)
    (hcanon : ∀ e ∈ log, ∀ c ∈ e.2, ∃ ts text : Str,
      c = fmtComment ts text ∧ ts.length = 19 ∧ ']' ∉ ts) :
    (∀ r ∈ get_commented_images log knownPaths thumbOk,
      r.path ∈ knownPaths ∧ ∃ cs, (r.path, cs) ∈ log ∧
        r.count = cs.length ∧ r.latest = cs.getLastD []) ∧
    (get_commented_images log knownPaths thumbOk).Pairwise
      (fun a b => lexLe (tsOf b.latest) (tsOf a.latest) = true) ∧
    (∀ e ∈ log, e.1 ∈ knownPaths → thumbOk e.1 = true →
      ∃ r ∈ get_commented_images log knownPaths thumbOk, r.path = e.1) := by
  have hcanonEntry : ∀ r ∈ get_commented_images log knownPaths thumbOk,
      r.latest = [] ∨ ∃ ts text : Str, r.latest = fmtComment ts text ∧
        ts.length = 19 ∧ ']' ∉ ts := by
    intro r hr
    simp only [get_commented_images, List.mem_mergeSort] at hr
    rcases List.mem_map.mp hr with ⟨e, he, rfl⟩
    rcases List.mem_filter.mp he with ⟨helog, _⟩
    rcases getLastD_mem_or_nil e.2 [] with hnil | hmem
    · left
      simp [hnil]
    · right
      exact hcanon e helog _ hmem
  refine ⟨?_, ?_, ?_⟩
  · intro r hr
    simp only [get_commented_images, List.mem_mergeSort] at hr
    rcases List.mem_map.mp hr with ⟨e, he, rfl⟩
    rcases List.mem_filter.mp he with ⟨helog, hcond⟩
    rw [Bool.and_eq_true] at hcond
    refine ⟨by simpa using of_decide_eq_true hcond.1, e.2, ?_, rfl, rfl⟩
    simpa using helog
  · have hs : (get_commented_images log knownPaths thumbOk).Pairwise
        (fun a b => entryLE a b = true) := by
      unfold get_commented_images
      exact List.sorted_mergeSort entryLE_trans entryLE_total _
    refine List.Pairwise.imp_of_mem ?_ hs
    intro a b ha hb hab
    rcases hcanonEntry b hb with hbnil | ⟨tsb, tb, hbeq, hblen, hbno⟩
    · rw [hbnil]
      simp [tsOf, lexLe]
    · rcases hcanonEntry a ha with hanil | ⟨tsa, ta, haeq, halen, hano⟩
      · exfalso
        have hb2 : lexLe b.latest a.latest = true := hab
        rw [hanil] at hb2
        have hb3 := lexLe_nil_right _ hb2
        rw [hbeq] at hb3
        simp [fmtComment] at hb3
      · have hb2 : lexLe b.latest a.latest = true := hab
        rw [haeq, hbeq] at hb2
        have hts := lexLe_fmtComment tsb tb tsa ta (by omega) hb2
        rw [haeq, hbeq, tsOf_fmtComment tsa ta hano,
          tsOf_fmtComment tsb tb hbno]
        exact hts
  · intro e helog hknown hthumb
    refine ⟨⟨e.1, e.2.length, e.2.getLastD []⟩, ?_, rfl⟩
    simp only [get_commented_images, List.mem_mergeSort]
    exact List.mem_map.mpr
      ⟨e, List.mem_filter.mpr ⟨helog, by simp [hknown, hthumb]⟩, rfl⟩

theorem get_commented_images_spec_witness :
    (∀ e ∈ ([("a.jpg", [fmtComment sampleTs ['h', 'i']])] : CommentLog),
      ∀ c ∈ e.2, ∃ ts text : Str, c = fmtComment ts text ∧
        ts.length = 19 ∧ ']' ∉ ts) ∧
    ((∀ r ∈ get_commented_images
        [("a.jpg", [fmtComment sampleTs ['h', 'i']])] ["a.jpg"]
        (fun _ => true),
      r.path ∈ (["a.jpg"] : List String) ∧ ∃ cs, (r.path, cs) ∈
          ([("a.jpg", [fmtComment sampleTs ['h', 'i']])] : CommentLog) ∧
        r.count = cs.length ∧ r.latest = cs.getLastD []) ∧
    (get_commented_images [("a.jpg", [fmtComment sampleTs ['h', 'i']])]
        ["a.jpg"] (fun _ => true)).Pairwise
      (fun a b => lexLe (tsOf b.latest) (tsOf a.latest) = true) ∧
    (∀ e ∈ ([("a.jpg", [fmtComment sampleTs ['h', 'i']])] : CommentLog),
      e.1 ∈ (["a.jpg"] : List String) → (fun _ => true) e.1 = true →
      ∃ r ∈ get_commented_images
          [("a.jpg", [fmtComment sampleTs ['h', 'i']])] ["a.jpg"]
          (fun _ => true), r.path = e.1)) := by
  have hc : ∀ e ∈ ([("a.jpg", [fmtComment sampleTs ['h', 'i']])] :
      CommentLog), ∀ c ∈ e.2, ∃ ts text : Str, c = fmtComment ts text ∧
        ts.length = 19 ∧ ']' ∉ ts := by
    intro e he c hcm
    simp only [List.mem_singleton] at he
    subst he
    simp only [List.mem_singleton] at hcm
    subst hcm
    exact ⟨sampleTs, ['h', 'i'], rfl, by decide, by decide⟩
  exact ⟨hc, get_commented_images_spec _ _ _ hc⟩

end EvoSearch
